import Mathlib

/-!
Verification of the QuantumSimulator engine (QuantumSimulator.py).

The state of an n-qubit register is a complex tensor of rank n with every
axis of extent 2.  We embed such tensors as functions from index lists
(`List Bool`, one coordinate per axis) to `ℂ`; only values on lists of the
tensor's rank are meaningful.  Machine floating point is modelled by exact
real/complex arithmetic; the random draws consumed by `cp.random` are passed
as explicit real parameters.  The numpy primitives used by the source
(`cp.tensordot`, `ndarray.transpose`, `cp.unravel_index`) are embedded by
their documented index semantics.
-/

namespace QuantumSim

/-- Tensors over qubit axes: a complex amplitude for every list of bits.
A rank-n tensor is only ever evaluated on lists of length n. -/
def Tensor : Type := List Bool → ℂ

/-- Enumeration of all index lists of a given length, in C (row-major) order:
the first axis is the most significant, the last axis varies fastest.  This is
the order in which `ndarray.ravel` lays out entries. -/
def bitLists : ℕ → List (List Bool)
  | 0 => [[]]
  | n + 1 => ((bitLists n).map (fun l => false :: l)) ++ ((bitLists n).map (fun l => true :: l))

/-- Semantics of `ndarray.transpose(axes)` for a rank-r tensor: axis `axes[i]`
of the source becomes axis `i` of the result, so the source is read at the
index list whose position `p` holds the result coordinate numbered
`axes.indexOf p`. -/
def transposeT (r : ℕ) (axes : List ℕ) (a : Tensor) : Tensor :=
  fun idx => a ((List.range r).map (fun p => idx.getD (axes.indexOf p) false))

/-- Axes of a rank-r tensor not listed in `axes`, in increasing order.  This is
the list `notin` computed inside `numpy.tensordot`. -/
def notinL (r : ℕ) (axes : List ℕ) : List ℕ :=
  (List.range r).filter (fun p => !(decide (p ∈ axes)))

/-- Semantics of `numpy.tensordot(a, b, axes=(axesA, axesB))` for tensors of
rank `ra` and `rb` (extent 2 on every axis, axes already normalised to
nonnegative form).  Following the numpy implementation, `a` is transposed to
axis order `notin ++ axesA` and `b` to `axesB ++ notin`, and the contracted
positions are summed; the result is indexed by the free axes of `a` (in their
original relative order) followed by the free axes of `b`. -/
def tensordot (ra rb : ℕ) (a b : Tensor) (axesA axesB : List ℕ) : Tensor :=
  fun idx =>
    let m := axesA.length
    let fa := idx.take (ra - m)
    let fb := idx.drop (ra - m)
    ((bitLists m).map (fun t =>
      transposeT ra (notinL ra axesA ++ axesA) a (fa ++ t) *
      transposeT rb (axesB ++ notinL rb axesB) b (t ++ fb))).sum

/-- Loop body of `get_transposition` (QuantumSimulator.py, lines 55-60): the
state is the pair (assignments written so far, counter `ptr`).  At a target
position the entry `n - k + indices.index(i)` is written; otherwise the
current `ptr` is written and incremented. -/
def gtStep (n : ℕ) (indices : List ℤ) (st : List ℕ × ℕ) (i : ℕ) : List ℕ × ℕ :=
  if (i : ℤ) ∈ indices then
    (st.1 ++ [n - indices.length + indices.indexOf (i : ℤ)], st.2)
  else
    (st.1 ++ [st.2], st.2 + 1)

/-- Embedding of `get_transposition(n, indices)` (QuantumSimulator.py, lines
50-61): the imperative loop is rendered as a left fold over `range n` carrying
the list built so far together with the counter `ptr`.  Indices are Python
integers, hence `ℤ`; the membership test `i in indices` compares the loop
variable with the raw (possibly negative) entries of `indices`. -/
def get_transposition (n : ℕ) (indices : List ℤ) : List ℕ :=
  ((List.range n).foldl (gtStep n indices) ([], 0)).1

/-- Closed-form value written by the `get_transposition` loop at position `i`,
for natural-number targets `ts`. -/
def gtFormula (n : ℕ) (ts : List ℕ) (i : ℕ) : ℕ :=
  if i ∈ ts then n - ts.length + ts.indexOf i
  else (List.range i).countP (fun j => !(decide (j ∈ ts)))

/-- Normalisation of a (possibly negative) Python axis into `[0, r)`, as
performed inside `numpy.tensordot` (`if axes_a[k] < 0: axes_a[k] += nda`). -/
def npAxis (r : ℕ) (i : ℤ) : ℕ :=
  if i < 0 then (i + r).toNat else i.toNat

/-- Embedding of the closure returned by `apply_gate(gate, *indices)`
(QuantumSimulator.py, lines 64-72) applied to a rank-n register, for
nonnegative in-range indices (the only ones reached by the gate catalog):
`cp.tensordot(register, gate, axes=(indices, range(len(indices))))` followed by
`.transpose(get_transposition(register.ndim, indices))`. -/
def apply_gate (n : ℕ) (gate : Tensor) (indices : List ℕ) (register : Tensor) : Tensor :=
  transposeT n (get_transposition n (indices.map (fun (i : ℕ) => (i : ℤ))))
    (tensordot n (2 * indices.length) register gate indices (List.range indices.length))

/-- Embedding of `apply_gate` together with the error behaviour of the numpy
primitives it calls, for arbitrary Python integer indices.  `none` models a
synchronously raised exception: `numpy.tensordot` raises when an axis lies
outside `[-n, n)` or when the normalised contraction axes repeat, and the
final `.transpose` raises unless its axis list is a permutation of
`range n`. -/
def apply_gate_py (n : ℕ) (gate : Tensor) (indices : List ℤ) (register : Tensor) :
    Option Tensor :=
  if (∀ i ∈ indices, -(n : ℤ) ≤ i ∧ i < (n : ℤ)) ∧
      (indices.map (npAxis n)).Nodup ∧
      (get_transposition n indices).Perm (List.range n)
  then
    some (transposeT n (get_transposition n indices)
      (tensordot n (2 * indices.length) register gate
        (indices.map (npAxis n)) (List.range indices.length)))
  else none

/-- A rank-2 gate tensor built from a 2 by 2 matrix `u b d` (`b` = output
index, `d` = input index), as the gate catalog builds `cp.array` literals. -/
def gate2 (u : Bool → Bool → ℂ) : Tensor :=
  fun l =>
    match l with
    | [b, d] => u b d
    | _ => 0

/-- Matrix of the Pauli X gate `[[0, 1], [1, 0]]` (QuantumSimulator.py, line
100). -/
def Xmat : Bool → Bool → ℂ :=
  fun b d => if b = d then 0 else 1

/-- Rank-2 tensor of the X gate. -/
def Xgate : Tensor := gate2 Xmat

/-- Matrix of the Pauli Y gate `[[0, -1j], [1j, 0]]` (QuantumSimulator.py,
line 107), a catalog gate with nonreal entries. -/
def Ymat : Bool → Bool → ℂ :=
  fun b d => if b = d then 0 else (if b then Complex.I else -Complex.I)

/-- Rank-2 tensor of the Hadamard gate, `cp.array([[1, 1], [1, -1]]) /
cp.sqrt(2)` (QuantumSimulator.py, line 138). -/
noncomputable def Hgate : Tensor :=
  fun l =>
    match l with
    | [b, d] => (if b && d then (-1 : ℂ) else 1) / ((Real.sqrt 2 : ℝ) : ℂ)
    | _ => 0

/-- Rank-4 tensor built by `C(i, j, unary_gate)` (QuantumSimulator.py, lines
193-200): `cp.zeros((2, 2, 2, 2))` with slice `[0, :, 0, :]` set to the
identity and slice `[1, :, 1, :]` set to the unary gate.  The buffer is
allocated WITHOUT a dtype, hence float64, so the slice assignment casts the
unary gate's entries to real (numpy's unsafe-cast assignment discards the
imaginary part with a ComplexWarning): the stored block is the real part of
`u`. -/
def Cgate (u : Bool → Bool → ℂ) : Tensor :=
  fun l =>
    match l with
    | [a, b, c, d] =>
      if a = c then (if a then (((u b d).re : ℝ) : ℂ) else (if b = d then 1 else 0))
      else 0
    | _ => 0

/-- Numeric value of a bit, for flat (C-order) indexing of reshaped arrays. -/
def bitv (b : Bool) : ℕ := if b then 1 else 0

/-- Flat entries of the CNOT gate as listed in the source (QuantumSimulator.py,
lines 163-167). -/
def CNOTflat : List ℂ :=
  [1, 0, 0, 0,
   0, 1, 0, 0,
   0, 0, 0, 1,
   0, 0, 1, 0]

/-- Rank-4 tensor of the CNOT gate: the flat 16-entry list reshaped to
`(2, 2, 2, 2)` in C order. -/
def CNOTgate : Tensor :=
  fun l =>
    match l with
    | [a, b, c, d] => CNOTflat.getD (8 * bitv a + 4 * bitv b + 2 * bitv c + bitv d) 0
    | _ => 0

/-- Squared L2 norm of a rank-n tensor: the sum of `|amplitude|^2` over all
index lists of length n (`cp.sum(cp.abs(register) ** 2)`;
`cp.linalg.norm` is its square root). -/
def l2normSq (n : ℕ) (ψ : Tensor) : ℝ :=
  ((bitLists n).map (fun idx => Complex.normSq (ψ idx))).sum

/-- Marginal probability mass of outcome `b` at axis `index`:
`cp.sum(cp.abs(register) ** 2, axis=<all other axes>)[b]`, the sum of squared
magnitudes over all entries whose coordinate at `index` is `b`. -/
def marginal (n index : ℕ) (register : Tensor) (b : Bool) : ℝ :=
  ((bitLists n).map (fun idx =>
    if idx.getD index false = b then Complex.normSq (register idx) else 0)).sum

/-- Collapse at one axis: zero every amplitude whose coordinate at `index`
differs from the sampled outcome `r` (`register[s] = 0` on the discarded
slice). -/
def collapseAt (index : ℕ) (r : Bool) (register : Tensor) : Tensor :=
  fun idx => if idx.getD index false = r then register idx else 0

/-- Embedding of the closure returned by `measure(index)` (QuantumSimulator.py,
lines 231-246) on a rank-n register.  The draw of `cp.random.rand()` is the
explicit parameter `u`.  The result pairs the returned bit with the contents
of the caller's register after the in-place collapse (`register[s] = 0`
followed by `register *= 1 / cp.linalg.norm(register)`). -/
noncomputable def measure (n index : ℕ) (u : ℝ) (register : Tensor) : Bool × Tensor :=
  let p : ℝ := marginal n index register false
    / (marginal n index register false + marginal n index register true)
  let result : Bool := decide (u > p)
  let collapsed : Tensor := collapseAt index result register
  let nrm : ℝ := Real.sqrt (l2normSq n collapsed)
  (result, fun idx => ((1 / nrm : ℝ) : ℂ) * collapsed idx)

/-- Inverse-CDF categorical sampling over a list of weights with a uniform
draw `u`, modelling `cp.random.choice(range(len(r)), p=weights)`: walk the
weights, subtracting, until the draw falls inside the current cell. -/
noncomputable def catIdx : List ℝ → ℝ → ℕ
  | [], _ => 0
  | w :: ws, u => if u < w then 0 else catIdx ws (u - w) + 1

/-- Semantics of `cp.unravel_index(i, (2,) * n)`: the big-endian binary digits
of the flat C-order index `i`, one bit per axis. -/
def unravel (n i : ℕ) : List Bool :=
  (List.range n).map (fun j => i.testBit (n - 1 - j))

/-- Embedding of the closure returned by `measure_all(collapse)`
(QuantumSimulator.py, lines 249-265) on a rank-n register, with the draw of
`cp.random.choice` supplied as the uniform parameter `u`.  The flattened
register is renormalised (into a fresh array - `r = r / cp.linalg.norm(r)`
rebinds `r`), a flat index is sampled from the squared magnitudes, and it is
unravelled to a multi-index.  The second component is the contents of the
caller's register after the call: rewritten to the sampled basis state when
`collapse` is true (`register.fill(0)`; `register[multiindex] = 1.0`),
untouched otherwise. -/
noncomputable def measure_all (n : ℕ) (collapse : Bool) (u : ℝ) (register : Tensor) :
    List Bool × Tensor :=
  let nrm : ℝ := Real.sqrt (l2normSq n register)
  let weights : List ℝ :=
    (bitLists n).map (fun idx => Complex.normSq (register idx / (nrm : ℂ)))
  let i : ℕ := catIdx weights u
  let midx : List Bool := unravel n i
  (midx, if collapse then (fun idx => if idx = midx then 1 else 0) else register)

/-- Buffer-level view of gate application: the closure built by
`apply_gate(gate, *indices)` computes `cp.tensordot(...).transpose(...)`,
a freshly allocated array, and contains no in-place assignment to
`register`; the pair records (returned tensor, contents of the caller's
array after the call).  Compare `measure` and `measure_all`, whose source
bodies do write into `register` and whose embeddings return the updated
contents. -/
def apply_gate_op (n : ℕ) (gate : Tensor) (indices : List ℕ) (register : Tensor) :
    Tensor × Tensor :=
  (apply_gate n gate indices register, register)

/-- Index assembly described by the specification for a contraction: position
`p` of the rank-n state index takes the contracted value numbered
`ts.indexOf p` if `p` is a target, and otherwise the next free value,
counting non-target axes upward from 0 in their original order. -/
def riffle (n : ℕ) (ts : List ℕ) (s free : List Bool) : List Bool :=
  (List.range n).map (fun p =>
    if p ∈ ts then s.getD (ts.indexOf p) false
    else free.getD ((List.range p).countP (fun j => !(decide (j ∈ ts)))) false)

/-- Modelled from the spec: the contraction step as the specification words it
("contract the gate's trailing k axes against the state's k target axes;
this produces an intermediate tensor whose axes are the gate's leading k axes
followed by the state's remaining n - k axes in their original relative
order").  Kept solely for comparison with the contraction the code performs. -/
def spec_contract (n k : ℕ) (gate ψ : Tensor) (ts : List ℕ) : Tensor :=
  fun idx =>
    ((bitLists k).map (fun t =>
      gate (idx.take k ++ t) * ψ (riffle n ts t (idx.drop k)))).sum

/-- Overwriting the target coordinates of an index list with contracted
values: position `p` takes `s (ts.indexOf p)` when `p` is a target and keeps
its old coordinate otherwise. -/
def overwrite (ts : List ℕ) (s : List Bool) (idx : List Bool) : List Bool :=
  (List.range idx.length).map (fun p =>
    if p ∈ ts then s.getD (ts.indexOf p) false else idx.getD p false)

/-- Basis state with amplitude 1 on the all-zero multi-index of rank 1. -/
def ket0 : Tensor := fun l => if l = [false] then 1 else 0

/-- Basis state with amplitude 1 on multi-index `[true]` (the state written
`|1>`), of rank 1. -/
def ket1 : Tensor := fun l => if l = [true] then 1 else 0

/-- The all-zero rank-1 tensor (a numerically impossible quantum state). -/
def zeroT : Tensor := fun _ => 0

/-- Rank-2 test gate with a single nonzero entry in row 0, column 1; its
matrix is not symmetric, which separates the two contraction conventions. -/
def g01 : Tensor := fun l => if l = [false, true] then 1 else 0

/-- Constant-one tensor, used as a generic concrete register in witnesses. -/
def oneT : Tensor := fun _ => 1

/-! ### List-level helper lemmas -/

section ListHelpers

variable {α : Type _} {β : Type _} {M : Type _}

/-- Reading an in-range position through `getD` is reading through `getElem`. -/
lemma getD_of_lt (l : List α) (i : ℕ) (d : α) (h : i < l.length) :
    l.getD i d = l[i] := by
  simp [List.getD_eq_getElem?_getD, List.getElem?_eq_getElem h]

/-- Reading a position inside the left part of an append through `getD`. -/
lemma getD_append_left (l1 l2 : List α) (i : ℕ) (d : α) (h : i < l1.length) :
    (l1 ++ l2).getD i d = l1.getD i d := by
  simp [List.getD_eq_getElem?_getD, List.getElem?_append_left h]

/-- Reading a position inside the right part of an append through `getD`. -/
lemma getD_append_right (l1 l2 : List α) (i : ℕ) (d : α) (h : l1.length ≤ i) :
    (l1 ++ l2).getD i d = l2.getD (i - l1.length) d := by
  simp [List.getD_eq_getElem?_getD, List.getElem?_append_right h]

/-- Reading a mapped list through `getD` at an in-range position. -/
lemma getD_map (f : α → β) (l : List α) (i : ℕ) (d : β) (d0 : α) (h : i < l.length) :
    (l.map f).getD i d = f (l.getD i d0) := by
  rw [getD_of_lt _ _ _ (by simpa using h), getD_of_lt _ _ _ h]
  simp

/-- A list is recovered by tabulating `getD` over the range of its length. -/
lemma map_getD_range (l : List α) (d : α) :
    (List.range l.length).map (fun p => l.getD p d) = l := by
  apply List.ext_getElem (by simp)
  intro i h1 h2
  simp only [List.getElem_map, List.getElem_range]
  exact getD_of_lt _ _ _ h2

/-- Sum of a pointwise addition of two maps. -/
lemma sum_map_add [AddCommMonoid M] (l : List α) (f g : α → M) :
    (l.map (fun x => f x + g x)).sum = (l.map f).sum + (l.map g).sum := by
  induction l with
  | nil => simp
  | cons a l ih =>
    simp only [List.map_cons, List.sum_cons, ih]
    abel

/-- Exchange of two nested list sums. -/
lemma sum_map_comm [AddCommMonoid M] (l1 : List α) (l2 : List β) (f : α → β → M) :
    (l1.map (fun a => (l2.map (fun b => f a b)).sum)).sum
      = (l2.map (fun b => (l1.map (fun a => f a b)).sum)).sum := by
  induction l1 with
  | nil => simp
  | cons a l ih =>
    simp only [List.map_cons, List.sum_cons, ih, ← sum_map_add]

/-- A mapped list sum over nonnegative reals is nonnegative. -/
lemma sum_map_nonneg (l : List α) (f : α → ℝ) (h : ∀ x ∈ l, 0 ≤ f x) :
    0 ≤ (l.map f).sum := by
  apply List.sum_nonneg
  intro x hx
  rcases List.mem_map.1 hx with ⟨a, ha, rfl⟩
  exact h a ha

/-- A mapped list sum over nonnegative reals with one positive member is
positive. -/
lemma sum_map_pos (l : List α) (f : α → ℝ) (h : ∀ x ∈ l, 0 ≤ f x)
    (x : α) (hx : x ∈ l) (hfx : 0 < f x) : 0 < (l.map f).sum := by
  induction l with
  | nil => cases hx
  | cons a l ih =>
    simp only [List.map_cons, List.sum_cons]
    rcases List.mem_cons.1 hx with rfl | hx2
    · have : 0 ≤ (l.map f).sum := sum_map_nonneg l f (fun y hy => h y (List.mem_cons_of_mem _ hy))
      linarith
    · have ha : 0 ≤ f a := h a (List.mem_cons_self _ _)
      have : 0 < (l.map f).sum := ih (fun y hy => h y (List.mem_cons_of_mem _ hy)) hx2
      linarith

/-- Every member of `bitLists n` has length `n`. -/
lemma length_of_mem_bitLists : ∀ (n : ℕ) (l : List Bool), l ∈ QuantumSim.bitLists n → l.length = n := by
  intro n
  induction n with
  | zero => intro l hl; simp [QuantumSim.bitLists] at hl; simp [hl]
  | succ n ih =>
    intro l hl
    simp only [QuantumSim.bitLists, List.mem_append, List.mem_map] at hl
    rcases hl with ⟨l2, hl2, rfl⟩ | ⟨l2, hl2, rfl⟩ <;> simp [ih l2 hl2]

/-- Every length-n bit list is a member of `bitLists n`. -/
lemma mem_bitLists : ∀ (n : ℕ) (l : List Bool), l.length = n → l ∈ QuantumSim.bitLists n := by
  intro n
  induction n with
  | zero => intro l hl; simp [List.length_eq_zero] at hl; simp [hl, QuantumSim.bitLists]
  | succ n ih =>
    intro l hl
    cases l with
    | nil => simp at hl
    | cons b l2 =>
      simp only [List.length_cons, Nat.succ.injEq] at hl
      have h2 := ih l2 hl
      rw [show QuantumSim.bitLists (n + 1)
          = ((QuantumSim.bitLists n).map (fun l => false :: l))
            ++ ((QuantumSim.bitLists n).map (fun l => true :: l)) from rfl]
      cases b with
      | false => exact List.mem_append_left _ (List.mem_map_of_mem _ h2)
      | true => exact List.mem_append_right _ (List.mem_map_of_mem _ h2)

/-- Counting members of a duplicate-free list among `range n` gives its
length, when all members are below `n`. -/
lemma countP_range_mem (n : ℕ) (ts : List ℕ) (hnd : ts.Nodup) (hlt : ∀ i ∈ ts, i < n) :
    (List.range n).countP (fun j => decide (j ∈ ts)) = ts.length := by
  rw [List.countP_eq_length_filter]
  have hfil : ((List.range n).filter (fun j => decide (j ∈ ts))).Nodup :=
    List.Nodup.filter _ (List.nodup_range n)
  have hmem : ∀ j, j ∈ (List.range n).filter (fun j => decide (j ∈ ts)) ↔ j ∈ ts := by
    intro j
    simp only [List.mem_filter, List.mem_range, decide_eq_true_eq]
    exact ⟨fun h => h.2, fun h => ⟨hlt j h, h⟩⟩
  have h1 : ((List.range n).filter (fun j => decide (j ∈ ts))).toFinset = ts.toFinset := by
    apply Finset.ext
    intro j
    simp only [List.mem_toFinset]
    exact hmem j
  calc ((List.range n).filter (fun j => decide (j ∈ ts))).length
      = ((List.range n).filter (fun j => decide (j ∈ ts))).toFinset.card :=
        (List.toFinset_card_of_nodup hfil).symm
    _ = ts.toFinset.card := by rw [h1]
    _ = ts.length := List.toFinset_card_of_nodup hnd

end ListHelpers

/-! ### Closed form and permutation property of `get_transposition` -/

/-- State of the `get_transposition` loop after processing `range m`: the list
written so far tabulates the closed-form assignment, and `ptr` equals the
number of non-target positions seen. -/
lemma gt_foldl_spec (n : ℕ) (zs : List ℤ) (m : ℕ) :
    (List.range m).foldl (gtStep n zs) ([], 0)
      = ((List.range m).map (fun (i : ℕ) =>
            if (i : ℤ) ∈ zs then n - zs.length + zs.indexOf (i : ℤ)
            else (List.range i).countP (fun (j : ℕ) => !(decide ((j : ℤ) ∈ zs)))),
         (List.range m).countP (fun (j : ℕ) => !(decide ((j : ℤ) ∈ zs)))) := by
  induction m with
  | zero => simp
  | succ m ih =>
    rw [List.range_succ, List.foldl_append, ih]
    simp only [List.foldl_cons, List.foldl_nil, gtStep]
    by_cases h : (m : ℤ) ∈ zs
    · simp [h, List.range_succ, List.countP_append, List.countP_cons]
    · simp [h, List.range_succ, List.countP_append, List.countP_cons]

/-- Closed form of `get_transposition`. -/
lemma get_transposition_eq (n : ℕ) (zs : List ℤ) :
    get_transposition n zs
      = (List.range n).map (fun (i : ℕ) =>
          if (i : ℤ) ∈ zs then n - zs.length + zs.indexOf (i : ℤ)
          else (List.range i).countP (fun (j : ℕ) => !(decide ((j : ℤ) ∈ zs)))) := by
  rw [get_transposition, gt_foldl_spec]

/-- Length of the transposition list. -/
lemma get_transposition_length (n : ℕ) (zs : List ℤ) :
    (get_transposition n zs).length = n := by
  simp [get_transposition_eq]

/-- Entry of the transposition list at an in-range position. -/
lemma get_transposition_getD (n : ℕ) (zs : List ℤ) (i : ℕ) (h : i < n) :
    (get_transposition n zs).getD i 0
      = (if (i : ℤ) ∈ zs then n - zs.length + zs.indexOf (i : ℤ)
         else (List.range i).countP (fun (j : ℕ) => !(decide ((j : ℤ) ∈ zs)))) := by
  rw [get_transposition_eq, getD_of_lt _ _ _ (by simpa using h)]
  simp

/-- Casting membership through the embedding of `ℕ` into `ℤ`. -/
lemma mem_map_intCast (ts : List ℕ) (i : ℕ) :
    ((i : ℤ) ∈ ts.map (fun (t : ℕ) => (t : ℤ))) ↔ i ∈ ts := by
  simp only [List.mem_map]
  constructor
  · rintro ⟨a, ha, hai⟩
    have : a = i := by exact_mod_cast hai
    rwa [← this]
  · intro h
    exact ⟨i, h, rfl⟩

/-- Casting `indexOf` through the embedding of `ℕ` into `ℤ`. -/
lemma indexOf_map_intCast (ts : List ℕ) (i : ℕ) :
    (ts.map (fun (t : ℕ) => (t : ℤ))).indexOf (i : ℤ) = ts.indexOf i := by
  induction ts with
  | nil => simp
  | cons a ts ih =>
    by_cases h : a = i
    · subst h
      simp [List.indexOf_cons_self]
    · have h2 : (a : ℤ) ≠ (i : ℤ) := by exact_mod_cast h
      rw [List.map_cons, List.indexOf_cons_ne _ h2, List.indexOf_cons_ne _ h, ih]

/-- Entry of the transposition list for natural-number targets: a target
position `i` is sent to `n - k` plus its rank among the targets, and a
non-target position to the number of non-target positions before it. -/
lemma get_transposition_natD (n : ℕ) (ts : List ℕ) (i : ℕ) (h : i < n) :
    (get_transposition n (ts.map (fun (t : ℕ) => (t : ℤ)))).getD i 0 = gtFormula n ts i := by
  rw [get_transposition_getD n _ i h, gtFormula]
  by_cases hm : i ∈ ts
  · rw [if_pos ((mem_map_intCast ts i).2 hm), if_pos hm,
      indexOf_map_intCast, List.length_map]
  · rw [if_neg (fun hc => hm ((mem_map_intCast ts i).1 hc)), if_neg hm]
    congr 1
    funext j
    rw [decide_eq_decide.2 (mem_map_intCast ts j)]

/-- The transposition list for natural targets tabulates `gtFormula`. -/
lemma get_transposition_eq_map (n : ℕ) (ts : List ℕ) :
    get_transposition n (ts.map (fun (t : ℕ) => (t : ℤ)))
      = (List.range n).map (gtFormula n ts) := by
  apply List.ext_getElem
  · simp [get_transposition_length]
  · intro i h1 h2
    have hi : i < n := by
      simpa [get_transposition_length] using h1
    rw [← getD_of_lt _ _ 0 h1, ← getD_of_lt _ _ 0 h2,
      get_transposition_natD n ts i hi,
      getD_map (gtFormula n ts) (List.range n) i 0 0 (by simpa using hi)]
    congr 1
    rw [getD_of_lt _ _ _ (by simpa using hi)]
    simp

/-- Counting over an initial segment is monotone in its length. -/
lemma countP_range_mono (p : ℕ → Bool) {m n : ℕ} (h : m ≤ n) :
    (List.range m).countP p ≤ (List.range n).countP p := by
  induction n with
  | zero => simp [Nat.le_zero.1 h]
  | succ n ih =>
    rcases Nat.lt_or_ge m (n + 1) with h2 | h2
    · have := ih (Nat.lt_succ_iff.1 h2)
      rw [List.range_succ, List.countP_append]
      omega
    · have : m = n + 1 := le_antisymm h h2
      simp [this]

/-- Count of non-target positions among `range n` when the targets are
duplicate-free and in range. -/
lemma countP_range_not_mem (n : ℕ) (ts : List ℕ) (hnd : ts.Nodup)
    (hlt : ∀ i ∈ ts, i < n) :
    (List.range n).countP (fun j => !(decide (j ∈ ts))) = n - ts.length := by
  have h1 : n = (List.range n).countP (fun j => decide (j ∈ ts))
      + (List.range n).countP (fun j => !(decide (j ∈ ts))) := by
    have h0 := List.length_eq_countP_add_countP
      (p := fun (j : ℕ) => decide (j ∈ ts)) (l := List.range n)
    simpa using h0
  rw [countP_range_mem n ts hnd hlt] at h1
  omega

/-- One more step of counting through a non-target position. -/
lemma countP_range_succ_not_mem (ts : List ℕ) (i : ℕ) (hi : i ∉ ts) :
    (List.range (i + 1)).countP (fun j => !(decide (j ∈ ts)))
      = (List.range i).countP (fun j => !(decide (j ∈ ts))) + 1 := by
  rw [List.range_succ, List.countP_append]
  simp [hi]

/-- A strict bound for non-target entries: the count of non-targets before a
non-target position `i < n` is less than `n - k`. -/
lemma countP_range_lt (n : ℕ) (ts : List ℕ) (hnd : ts.Nodup)
    (hlt : ∀ i ∈ ts, i < n) (i : ℕ) (h : i < n) (hi : i ∉ ts) :
    (List.range i).countP (fun j => !(decide (j ∈ ts))) < n - ts.length := by
  have h1 := countP_range_succ_not_mem ts i hi
  have h2 := countP_range_mono (fun j => !(decide (j ∈ ts)))
    (show i + 1 ≤ n from h)
  rw [h1, countP_range_not_mem n ts hnd hlt] at h2
  omega

/-- Number of targets is at most the rank, for duplicate-free in-range
targets. -/
lemma targets_length_le (n : ℕ) (ts : List ℕ) (hnd : ts.Nodup)
    (hlt : ∀ i ∈ ts, i < n) : ts.length ≤ n := by
  have h1 : ts.toFinset ⊆ Finset.range n := by
    intro x hx
    rw [List.mem_toFinset] at hx
    exact Finset.mem_range.2 (hlt x hx)
  have h2 := Finset.card_le_card h1
  rwa [List.toFinset_card_of_nodup hnd, Finset.card_range] at h2

/-- Values of the closed-form assignment are below the rank. -/
lemma gtFormula_lt (n : ℕ) (ts : List ℕ) (hnd : ts.Nodup)
    (hlt : ∀ i ∈ ts, i < n) (i : ℕ) (h : i < n) : gtFormula n ts i < n := by
  have hk : ts.length ≤ n := targets_length_le n ts hnd hlt
  by_cases hm : i ∈ ts
  · have := List.indexOf_lt_length.2 hm
    simp only [gtFormula, if_pos hm]
    omega
  · have := countP_range_lt n ts hnd hlt i h hm
    simp only [gtFormula, if_neg hm]
    omega

/-- The closed-form assignment is injective on `range n`. -/
lemma gtFormula_inj (n : ℕ) (ts : List ℕ) (hnd : ts.Nodup)
    (hlt : ∀ i ∈ ts, i < n) :
    ∀ i ∈ List.range n, ∀ j ∈ List.range n,
      gtFormula n ts i = gtFormula n ts j → i = j := by
  intro i hi j hj hij
  rw [List.mem_range] at hi hj
  by_cases hmi : i ∈ ts <;> by_cases hmj : j ∈ ts
  · simp only [gtFormula, if_pos hmi, if_pos hmj] at hij
    have : ts.indexOf i = ts.indexOf j := by omega
    exact (List.indexOf_inj hmi hmj).1 this
  · exfalso
    have h1 := countP_range_lt n ts hnd hlt j hj hmj
    have h2 := List.indexOf_lt_length.2 hmi
    simp only [gtFormula, if_pos hmi, if_neg hmj] at hij
    omega
  · exfalso
    have h1 := countP_range_lt n ts hnd hlt i hi hmi
    have h2 := List.indexOf_lt_length.2 hmj
    simp only [gtFormula, if_neg hmi, if_pos hmj] at hij
    omega
  · simp only [gtFormula, if_neg hmi, if_neg hmj] at hij
    by_contra hne
    rcases Nat.lt_or_ge i j with hlt2 | hge
    · have hstep := countP_range_succ_not_mem ts i hmi
      have hmono := countP_range_mono (fun j2 => !(decide (j2 ∈ ts)))
        (show i + 1 ≤ j from hlt2)
      omega
    · have hlt3 : j < i := lt_of_le_of_ne hge (fun hc => hne hc.symm)
      have hstep := countP_range_succ_not_mem ts j hmj
      have hmono := countP_range_mono (fun j2 => !(decide (j2 ∈ ts)))
        (show j + 1 ≤ i from hlt3)
      omega

/-- The transposition list built for duplicate-free in-range natural targets
is a permutation of `range n`. -/
lemma get_transposition_perm (n : ℕ) (ts : List ℕ) (hnd : ts.Nodup)
    (hlt : ∀ i ∈ ts, i < n) :
    (get_transposition n (ts.map (fun (t : ℕ) => (t : ℤ)))).Perm (List.range n) := by
  have hnodup : ((List.range n).map (gtFormula n ts)).Nodup :=
    List.Nodup.map_on (gtFormula_inj n ts hnd hlt) (List.nodup_range n)
  have hsub : ((List.range n).map (gtFormula n ts)).toFinset ⊆ Finset.range n := by
    intro x hx
    rw [List.mem_toFinset, List.mem_map] at hx
    rcases hx with ⟨i, hi, rfl⟩
    exact Finset.mem_range.2 (gtFormula_lt n ts hnd hlt i (List.mem_range.1 hi))
  have hcard : ((List.range n).map (gtFormula n ts)).toFinset = Finset.range n := by
    apply Finset.eq_of_subset_of_card_le hsub
    rw [List.toFinset_card_of_nodup hnodup]
    simp
  rw [get_transposition_eq_map,
    List.perm_ext_iff_of_nodup hnodup (List.nodup_range n)]
  intro x
  rw [← List.mem_toFinset, hcard, Finset.mem_range, List.mem_range]

/-! ### Index bookkeeping for the contraction -/

/-- Membership in the complement list. -/
lemma mem_notinL (r : ℕ) (axes : List ℕ) (p : ℕ) :
    p ∈ notinL r axes ↔ p < r ∧ p ∉ axes := by
  simp [notinL, List.mem_filter, List.mem_range]

/-- The complement list has no duplicates. -/
lemma notinL_nodup (r : ℕ) (axes : List ℕ) : (notinL r axes).Nodup :=
  List.Nodup.filter _ (List.nodup_range r)

/-- Length of the complement list for duplicate-free in-range axes. -/
lemma length_notinL (n : ℕ) (ts : List ℕ) (hnd : ts.Nodup)
    (hlt : ∀ i ∈ ts, i < n) : (notinL n ts).length = n - ts.length := by
  rw [notinL, ← List.countP_eq_length_filter]
  exact countP_range_not_mem n ts hnd hlt

/-- Reading a list at the index of a member recovers the member. -/
lemma getD_indexOf (l : List ℕ) (p : ℕ) (h : p ∈ l) :
    l.getD (l.indexOf p) 0 = p := by
  rw [getD_of_lt _ _ _ (List.indexOf_lt_length.2 h)]
  exact List.getElem_indexOf (List.indexOf_lt_length.2 h)

/-- In a duplicate-free list, the index of the j-th entry is j. -/
lemma indexOf_getD_nodup (l : List ℕ) (hnd : l.Nodup) (j : ℕ) (h : j < l.length) :
    l.indexOf (l.getD j 0) = j := by
  rw [getD_of_lt _ _ _ h]
  have h1 : l.indexOf l[j] < l.length :=
    List.indexOf_lt_length.2 (List.getElem_mem h)
  have h2 : l[l.indexOf l[j]] = l[j] := List.getElem_indexOf h1
  exact (List.Nodup.getElem_inj_iff hnd).1 h2

/-- Position of a member of a filtered range: the number of earlier positions
satisfying the predicate. -/
lemma indexOf_filter_range (q : ℕ → Bool) (n p : ℕ) (hp : q p = true) (h : p < n) :
    ((List.range n).filter q).indexOf p = (List.range p).countP q := by
  induction n with
  | zero => cases h
  | succ n ih =>
    rw [List.range_succ, List.filter_append]
    rcases Nat.lt_or_ge p n with h2 | h2
    · rw [List.indexOf_append_of_mem, ih h2]
      simp only [List.mem_filter, List.mem_range]
      exact ⟨h2, hp⟩
    · have hpn : p = n := by omega
      subst hpn
      have hnm : p ∉ (List.range p).filter q := by
        simp [List.mem_filter]
      rw [List.indexOf_append_of_not_mem hnm]
      simp [hp, ← List.countP_eq_length_filter]

/-- Index of an element of `range n`. -/
lemma indexOf_range (n p : ℕ) (h : p < n) : (List.range n).indexOf p = p := by
  have h1 := indexOf_getD_nodup (List.range n) (List.nodup_range n) p (by simpa using h)
  rwa [getD_of_lt _ _ _ (by simpa using h), List.getElem_range] at h1

/-- Count of positions below `p` that lie outside `range k`. -/
lemma countP_range_not_mem_range (k p : ℕ) :
    (List.range p).countP (fun j => !(decide (j ∈ List.range k))) = p - k := by
  induction p with
  | zero => simp
  | succ p ih =>
    rw [List.range_succ, List.countP_append, ih]
    rcases Nat.lt_or_ge p k with h | h
    · simp [List.mem_range, h]
      omega
    · have : ¬ p < k := by omega
      simp [List.mem_range, this]
      omega

/-- Position lookup in the axis order `range k ++ notin` used for the gate
side of `tensordot` is the identity. -/
lemma indexOf_gate_axes (k p : ℕ) (h : p < 2 * k) :
    (List.range k ++ notinL (2 * k) (List.range k)).indexOf p = p := by
  rcases Nat.lt_or_ge p k with h2 | h2
  · rw [List.indexOf_append_of_mem (by simpa using h2)]
    exact indexOf_range k p h2
  · have hnm : p ∉ List.range k := by simpa using Nat.not_lt.2 h2
    rw [List.indexOf_append_of_not_mem hnm, List.length_range, notinL,
      indexOf_filter_range _ _ _ (by simpa using Nat.not_lt.2 h2) h,
      countP_range_not_mem_range]
    omega

/-- The gate-side transpose inside `tensordot` is the identity: with the
contracted axes being the leading `k` axes of a rank-2k tensor, the axis order
`axesB ++ notin` is just `range (2k)`. -/
lemma transposeT_gate_side (k : ℕ) (b : Tensor) (t fb : List Bool)
    (ht : t.length = k) (hfb : fb.length = k) :
    transposeT (2 * k) (List.range k ++ notinL (2 * k) (List.range k)) b (t ++ fb)
      = b (t ++ fb) := by
  rw [transposeT]
  congr 1
  have hlen : (t ++ fb).length = 2 * k := by
    simp [ht, hfb]
    omega
  calc (List.range (2 * k)).map
        (fun p => (t ++ fb).getD ((List.range k ++ notinL (2 * k) (List.range k)).indexOf p) false)
      = (List.range (2 * k)).map (fun p => (t ++ fb).getD p false) := by
        apply List.map_congr_left
        intro p hp
        rw [indexOf_gate_axes k p (List.mem_range.1 hp)]
    _ = t ++ fb := by
        rw [← hlen]
        exact map_getD_range (t ++ fb) false

/-- Lookup in the axis order `notin ++ ts` used for the state side of
`tensordot`: a target position is found at `n - k` plus its rank among the
targets, a non-target position at its rank among the non-targets. -/
lemma indexOf_state_axes (n : ℕ) (ts : List ℕ) (hnd : ts.Nodup)
    (hlt : ∀ i ∈ ts, i < n) (p : ℕ) (h : p < n) :
    (notinL n ts ++ ts).indexOf p
      = (if p ∈ ts then (n - ts.length) + ts.indexOf p
         else (List.range p).countP (fun j => !(decide (j ∈ ts)))) := by
  by_cases hm : p ∈ ts
  · rw [if_pos hm]
    have hnm : p ∉ notinL n ts := by
      rw [mem_notinL]
      tauto
    rw [List.indexOf_append_of_not_mem hnm, length_notinL n ts hnd hlt]
  · rw [if_neg hm]
    have hmem : p ∈ notinL n ts := (mem_notinL n ts p).2 ⟨h, hm⟩
    rw [List.indexOf_append_of_mem hmem, notinL,
      indexOf_filter_range _ _ _ (by simpa using hm) h]

/-- The inverse relation between `get_transposition` and the axis order
`notin ++ ts` produced by the contraction: looking a position up in the
transposition list recovers the source axis recorded at that position. -/
lemma get_transposition_indexOf (n : ℕ) (ts : List ℕ) (hnd : ts.Nodup)
    (hlt : ∀ i ∈ ts, i < n) (q : ℕ) (h : q < n) :
    (get_transposition n (ts.map (fun (t : ℕ) => (t : ℤ)))).indexOf q
      = (notinL n ts ++ ts).getD q 0 := by
  have hk : ts.length ≤ n := targets_length_le n ts hnd hlt
  have hlenQ : (notinL n ts ++ ts).length = n := by
    simp [length_notinL n ts hnd hlt]
    omega
  have hP := get_transposition_eq_map n ts
  have hPnodup : (get_transposition n (ts.map (fun (t : ℕ) => (t : ℤ)))).Nodup := by
    rw [hP]
    exact List.Nodup.map_on (gtFormula_inj n ts hnd hlt) (List.nodup_range n)
  set i : ℕ := (notinL n ts ++ ts).getD q 0 with hi
  have hiQ : i < n := by
    rcases Nat.lt_or_ge q (n - ts.length) with h2 | h2
    · have : i ∈ notinL n ts := by
        rw [hi, getD_append_left _ _ _ _ (by rw [length_notinL n ts hnd hlt]; omega),
          getD_of_lt _ _ _ (by rw [length_notinL n ts hnd hlt]; omega)]
        exact List.getElem_mem _
      exact ((mem_notinL n ts i).1 this).1
    · have : i ∈ ts := by
        rw [hi, getD_append_right _ _ _ _ (by rw [length_notinL n ts hnd hlt]; omega),
          getD_of_lt _ _ _ (by rw [length_notinL n ts hnd hlt]; omega)]
        exact List.getElem_mem _
      exact hlt i this
  have hval : (get_transposition n (ts.map (fun (t : ℕ) => (t : ℤ)))).getD i 0 = q := by
    rw [get_transposition_natD n ts i hiQ]
    rcases Nat.lt_or_ge q (n - ts.length) with h2 | h2
    · have hgi : i = (notinL n ts).getD q 0 := by
        rw [hi, getD_append_left _ _ _ _ (by rw [length_notinL n ts hnd hlt]; omega)]
      have hmem : i ∈ notinL n ts := by
        rw [hgi, getD_of_lt _ _ _ (by rw [length_notinL n ts hnd hlt]; omega)]
        exact List.getElem_mem _
      have hnmem : i ∉ ts := ((mem_notinL n ts i).1 hmem).2
      rw [gtFormula, if_neg hnmem, ← indexOf_filter_range _ n i (by simpa using hnmem) hiQ]
      rw [show (List.range n).filter (fun j => !(decide (j ∈ ts))) = notinL n ts from rfl]
      rw [hgi]
      exact indexOf_getD_nodup (notinL n ts) (notinL_nodup n ts) q
        (by rw [length_notinL n ts hnd hlt]; omega)
    · have hgi : i = ts.getD (q - (n - ts.length)) 0 := by
        rw [hi, getD_append_right _ _ _ _ (by rw [length_notinL n ts hnd hlt]; omega),
          length_notinL n ts hnd hlt]
      have hq2 : q - (n - ts.length) < ts.length := by omega
      have hmem : i ∈ ts := by
        rw [hgi, getD_of_lt _ _ _ hq2]
        exact List.getElem_mem _
      rw [gtFormula, if_pos hmem, hgi,
        indexOf_getD_nodup ts hnd _ hq2]
      omega
  rw [← hval]
  exact indexOf_getD_nodup _ hPnodup i
    (by rw [get_transposition_length]; exact hiQ)

/-! ### Pointwise evaluation of gate application -/

/-- The state-side transpose inside `tensordot`, applied to the reassembled
index: reading the state at axis order `notin ++ ts` with the free
coordinates of `idx` followed by contracted values `s` is reading it at `idx`
with the target coordinates overwritten by `s`. -/
lemma transposeT_state_side (n : ℕ) (ts : List ℕ) (hnd : ts.Nodup)
    (hlt : ∀ i ∈ ts, i < n) (ψ : Tensor) (idx : List Bool) (hlen : idx.length = n)
    (s : List Bool) :
    transposeT n (notinL n ts ++ ts) ψ
        ((notinL n ts).map (fun t => idx.getD t false) ++ s)
      = ψ (overwrite ts s idx) := by
  have hlenN : (notinL n ts).length = n - ts.length := length_notinL n ts hnd hlt
  rw [transposeT, overwrite, hlen]
  congr 1
  apply List.map_congr_left
  intro p hp
  have hpn : p < n := List.mem_range.1 hp
  rw [indexOf_state_axes n ts hnd hlt p hpn]
  by_cases hm : p ∈ ts
  · rw [if_pos hm, if_pos hm,
      getD_append_right _ _ _ _ (by simp only [List.length_map, hlenN]; omega)]
    congr 1
    simp [hlenN]
  · rw [if_neg hm, if_neg hm]
    have hblt : (List.range p).countP (fun j => !(decide (j ∈ ts))) < n - ts.length :=
      countP_range_lt n ts hnd hlt p hpn hm
    rw [getD_append_left _ _ _ _ (by simp only [List.length_map, hlenN]; omega)]
    have hidx : (List.range p).countP (fun j => !(decide (j ∈ ts)))
        = (notinL n ts).indexOf p := by
      rw [notinL, indexOf_filter_range _ _ _ (by simpa using hm) hpn]
    rw [getD_map (fun t => idx.getD t false) (notinL n ts) _ false 0
      (by rw [hlenN]; exact hblt)]
    rw [hidx, getD_indexOf (notinL n ts) p ((mem_notinL n ts p).2 ⟨hpn, hm⟩)]

/-- Pointwise value of `apply_gate` on a length-n index list: the amplitude is
the sum, over all contracted values `s` for the gate's leading axes, of the
state read with targets overwritten by `s` times the gate read at `s`
followed by the original target coordinates of `idx`. -/
lemma apply_gate_eval (n : ℕ) (g : Tensor) (ts : List ℕ) (ψ : Tensor)
    (idx : List Bool) (hnd : ts.Nodup) (hlt : ∀ i ∈ ts, i < n)
    (hlen : idx.length = n) :
    apply_gate n g ts ψ idx
      = ((bitLists ts.length).map (fun s =>
          ψ (overwrite ts s idx)
            * g (s ++ ts.map (fun t => idx.getD t false)))).sum := by
  have hk : ts.length ≤ n := targets_length_le n ts hnd hlt
  have hlenN : (notinL n ts).length = n - ts.length := length_notinL n ts hnd hlt
  have hjdx : (List.range n).map (fun p =>
        idx.getD ((get_transposition n (ts.map (fun (t : ℕ) => (t : ℤ)))).indexOf p) false)
      = (notinL n ts).map (fun t => idx.getD t false)
        ++ ts.map (fun t => idx.getD t false) := by
    rw [← List.map_append]
    apply List.ext_getElem
    · simp [hlenN]
      omega
    · intro q h1 h2
      simp only [List.getElem_map, List.getElem_range]
      rw [get_transposition_indexOf n ts hnd hlt q (by simpa using h1)]
      congr 1
      rw [getD_of_lt _ _ _ (by simpa using h2)]
  rw [apply_gate]
  rw [show transposeT n (get_transposition n (ts.map (fun (t : ℕ) => (t : ℤ))))
        (tensordot n (2 * ts.length) ψ g ts (List.range ts.length)) idx
      = tensordot n (2 * ts.length) ψ g ts (List.range ts.length)
          ((List.range n).map (fun p =>
            idx.getD ((get_transposition n (ts.map (fun (t : ℕ) => (t : ℤ)))).indexOf p) false))
      from rfl]
  rw [hjdx]
  rw [show tensordot n (2 * ts.length) ψ g ts (List.range ts.length)
        ((notinL n ts).map (fun t => idx.getD t false)
          ++ ts.map (fun t => idx.getD t false))
      = ((bitLists ts.length).map (fun s =>
          transposeT n (notinL n ts ++ ts) ψ
            (((notinL n ts).map (fun t => idx.getD t false)
              ++ ts.map (fun t => idx.getD t false)).take (n - ts.length) ++ s)
          * transposeT (2 * ts.length)
              (List.range ts.length ++ notinL (2 * ts.length) (List.range ts.length)) g
              (s ++ ((notinL n ts).map (fun t => idx.getD t false)
                ++ ts.map (fun t => idx.getD t false)).drop (n - ts.length)))).sum
      from rfl]
  rw [List.take_left' (by simp [hlenN]),
    List.drop_left' (by simp [hlenN])]
  apply congrArg List.sum
  apply List.map_congr_left
  intro s hs
  have hslen : s.length = ts.length := length_of_mem_bitLists ts.length s hs
  rw [transposeT_state_side n ts hnd hlt ψ idx hlen s,
    transposeT_gate_side ts.length g s (ts.map (fun t => idx.getD t false))
      hslen (by simp)]

/-! ### Properties of `overwrite` -/

/-- Overwriting preserves the length. -/
lemma overwrite_length (ts : List ℕ) (s idx : List Bool) :
    (overwrite ts s idx).length = idx.length := by
  simp [overwrite]

/-- Entry of an overwritten index list. -/
lemma overwrite_getD (ts : List ℕ) (s idx : List Bool) (p : ℕ) (h : p < idx.length) :
    (overwrite ts s idx).getD p false
      = (if p ∈ ts then s.getD (ts.indexOf p) false else idx.getD p false) := by
  rw [overwrite, getD_map _ _ _ _ 0 (by simpa using h),
    getD_of_lt _ _ _ (by simpa using h)]
  simp

/-- Overwriting one target with its current coordinate changes nothing. -/
lemma overwrite_self_single (i : ℕ) (idx : List Bool) :
    overwrite [i] [idx.getD i false] idx = idx := by
  rw [overwrite]
  rw [show (List.range idx.length).map
        (fun p => if p ∈ [i] then [idx.getD i false].getD ([i].indexOf p) false
          else idx.getD p false)
      = (List.range idx.length).map (fun p => idx.getD p false) from
    List.map_congr_left (by
      intro p _
      by_cases h : p = i
      · subst h
        simp
      · simp [h])]
  exact map_getD_range idx false

/-- Overwriting two targets with their current coordinates changes nothing. -/
lemma overwrite_self_pair (i j : ℕ) (idx : List Bool) :
    overwrite [i, j] [idx.getD i false, idx.getD j false] idx = idx := by
  rw [overwrite]
  rw [show (List.range idx.length).map
        (fun p => if p ∈ [i, j] then
            [idx.getD i false, idx.getD j false].getD ([i, j].indexOf p) false
          else idx.getD p false)
      = (List.range idx.length).map (fun p => idx.getD p false) from
    List.map_congr_left (by
      intro p _
      by_cases hpi : p = i
      · subst hpi
        rw [if_pos (by simp), List.indexOf_cons_self]
        rfl
      · by_cases hpj : p = j
        · subst hpj
          have h1 : ([i, p] : List ℕ).indexOf p = 1 := by
            rw [List.indexOf_cons_ne _ (fun hc => hpi hc.symm), List.indexOf_cons_self]
          rw [if_pos (by simp), h1]
          rfl
        · simp [hpi, hpj])]
  exact map_getD_range idx false

/-- Overwriting the same single target twice keeps only the second write. -/
lemma overwrite_overwrite_single (i : ℕ) (s s2 idx : List Bool) :
    overwrite [i] s (overwrite [i] s2 idx) = overwrite [i] s idx := by
  apply List.ext_getElem
  · simp [overwrite_length]
  · intro p h1 h2
    have hp : p < idx.length := by
      simpa [overwrite_length] using h2
    rw [← getD_of_lt _ _ false h1, ← getD_of_lt _ _ false h2]
    rw [overwrite_getD [i] s _ p (by simpa [overwrite_length] using hp)]
    rw [overwrite_getD [i] s idx p hp]
    by_cases h : p ∈ [i]
    · rw [if_pos h, if_pos h]
    · rw [if_neg h, if_neg h, overwrite_getD [i] s2 idx p hp, if_neg h]

/-- Coordinate of a single-target overwrite at the target. -/
lemma overwrite_getD_single (i : ℕ) (s idx : List Bool) (h : i < idx.length) :
    (overwrite [i] s idx).getD i false = s.getD 0 false := by
  rw [overwrite_getD [i] s idx i h, if_pos (by simp), List.indexOf_cons_self]

/-- A pair overwrite whose control entry repeats the current coordinate is a
single-target overwrite. -/
lemma overwrite_pair_to_single (i j : ℕ) (b : Bool) (idx : List Bool)
    (hij : i ≠ j) (hc : idx.getD i false = true) :
    overwrite [i, j] [true, b] idx = overwrite [j] [b] idx := by
  rw [overwrite, overwrite]
  apply List.map_congr_left
  intro p _
  by_cases hpi : p = i
  · subst hpi
    rw [if_pos (by simp), if_neg (by simpa using hij), List.indexOf_cons_self]
    rw [show ([true, b] : List Bool).getD 0 false = true from rfl, hc]
  · by_cases hpj : p = j
    · subst hpj
      have h1 : ([i, p] : List ℕ).indexOf p = 1 := by
        rw [List.indexOf_cons_ne _ (fun hc2 => hpi hc2.symm), List.indexOf_cons_self]
      rw [if_pos (by simp), if_pos (by simp), h1, List.indexOf_cons_self]
      rfl
    · simp [hpi, hpj]

/-- The value of a gate application depends only on the first n coordinates of
the index list: gate application sends rank-n tensors to rank-n tensors. -/
lemma apply_gate_rank (n : ℕ) (g : Tensor) (ts : List ℕ) (ψ : Tensor)
    (hnd : ts.Nodup) (hlt : ∀ i ∈ ts, i < n) (idx1 idx2 : List Bool)
    (h : idx1.take n = idx2.take n) :
    apply_gate n g ts ψ idx1 = apply_gate n g ts ψ idx2 := by
  have hgetD : ∀ q, q < n → idx1.getD q false = idx2.getD q false := by
    intro q hq
    have h1 : (idx1.take n).getD q false = idx1.getD q false := by
      simp [List.getD_eq_getElem?_getD, List.getElem?_take_of_lt hq]
    have h2 : (idx2.take n).getD q false = idx2.getD q false := by
      simp [List.getD_eq_getElem?_getD, List.getElem?_take_of_lt hq]
    rw [← h1, ← h2, h]
  rw [apply_gate]
  rw [show ∀ jdx : List Bool,
      transposeT n (get_transposition n (ts.map (fun (t : ℕ) => (t : ℤ))))
        (tensordot n (2 * ts.length) ψ g ts (List.range ts.length)) jdx
      = tensordot n (2 * ts.length) ψ g ts (List.range ts.length)
          ((List.range n).map (fun p =>
            jdx.getD ((get_transposition n (ts.map (fun (t : ℕ) => (t : ℤ)))).indexOf p)
              false))
    from fun jdx => rfl]
  congr 1
  apply List.map_congr_left
  intro p hp
  have hperm := get_transposition_perm n ts hnd hlt
  have hmem : p ∈ get_transposition n (ts.map (fun (t : ℕ) => (t : ℤ))) :=
    hperm.mem_iff.2 hp
  have hlt2 : (get_transposition n (ts.map (fun (t : ℕ) => (t : ℤ)))).indexOf p < n := by
    have := List.indexOf_lt_length.2 hmem
    rwa [get_transposition_length] at this
  exact hgetD _ hlt2

/-- For duplicate-free in-range natural targets the full numpy pipeline
raises nothing: all validity checks pass and the checked application returns
exactly the unchecked one. -/
lemma apply_gate_py_eq (n : ℕ) (g : Tensor) (ts : List ℕ) (ψ : Tensor)
    (hnd : ts.Nodup) (hlt : ∀ i ∈ ts, i < n) :
    apply_gate_py n g (ts.map (fun (t : ℕ) => (t : ℤ))) ψ
      = some (apply_gate n g ts ψ) := by
  have hmap : (ts.map (fun (t : ℕ) => (t : ℤ))).map (npAxis n) = ts := by
    rw [List.map_map]
    rw [show ((npAxis n) ∘ fun (t : ℕ) => (t : ℤ)) = fun (t : ℕ) => npAxis n (t : ℤ)
      from rfl]
    have h2 : ∀ x ∈ ts, npAxis n (x : ℤ) = x := by
      intro x _
      rw [npAxis, if_neg (by omega)]
      simp
    calc ts.map (fun (t : ℕ) => npAxis n (t : ℤ))
        = ts.map (fun t => t) := List.map_congr_left h2
      _ = ts := List.map_id ts
  rw [apply_gate_py, if_pos, apply_gate]
  · rw [hmap, List.length_map]
  · refine ⟨?_, ?_, ?_⟩
    · intro i hi
      rcases List.mem_map.1 hi with ⟨a, ha, rfl⟩
      have := hlt a ha
      constructor
      · omega
      · omega
    · rw [hmap]
      exact hnd
    · exact get_transposition_perm n ts hnd hlt

/-! ### Measurement support lemmas -/

/-- The bit returned by `measure` is the comparison of the draw with the
normalised marginal of outcome 0. -/
lemma measure_fst (n index : ℕ) (u : ℝ) (ψ : Tensor) :
    (measure n index u ψ).1
      = decide (u > marginal n index ψ false
          / (marginal n index ψ false + marginal n index ψ true)) := rfl

/-- The register contents after `measure`: the collapsed tensor scaled by the
reciprocal of its norm. -/
lemma measure_snd (n index : ℕ) (u : ℝ) (ψ : Tensor) :
    (measure n index u ψ).2
      = fun idx =>
          ((1 / Real.sqrt (l2normSq n (collapseAt index ((measure n index u ψ).1) ψ)) : ℝ) : ℂ)
            * collapseAt index ((measure n index u ψ).1) ψ idx := rfl

/-- Marginals are nonnegative. -/
lemma marginal_nonneg (n index : ℕ) (ψ : Tensor) (b : Bool) :
    0 ≤ marginal n index ψ b := by
  apply sum_map_nonneg
  intro idx _
  by_cases h : idx.getD index false = b
  · rw [if_pos h]
    exact Complex.normSq_nonneg _
  · rw [if_neg h]

/-- The two marginals at an axis add up to the squared norm. -/
lemma marginal_add (n index : ℕ) (ψ : Tensor) :
    marginal n index ψ false + marginal n index ψ true = l2normSq n ψ := by
  rw [marginal, marginal, ← sum_map_add, l2normSq]
  apply congrArg List.sum
  apply List.map_congr_left
  intro idx _
  cases h : idx.getD index false <;> simp [h]

/-- Squared norm of the collapsed tensor: the marginal of the kept outcome. -/
lemma l2normSq_collapseAt (n index : ℕ) (r : Bool) (ψ : Tensor) :
    l2normSq n (collapseAt index r ψ) = marginal n index ψ r := by
  rw [l2normSq, marginal]
  apply congrArg List.sum
  apply List.map_congr_left
  intro idx _
  rw [collapseAt]
  by_cases h : idx.getD index false = r
  · simp only [if_pos h]
  · simp only [if_neg h, Complex.normSq_zero]

/-- Scaling a tensor by a real factor scales the squared norm by its
square. -/
lemma l2normSq_smul (n : ℕ) (c : ℝ) (ψ : Tensor) :
    l2normSq n (fun idx => ((c : ℝ) : ℂ) * ψ idx) = c ^ 2 * l2normSq n ψ := by
  rw [l2normSq, l2normSq]
  rw [show (bitLists n).map (fun idx => Complex.normSq (((c : ℝ) : ℂ) * ψ idx))
      = (bitLists n).map (fun idx => c ^ 2 * Complex.normSq (ψ idx)) from
    List.map_congr_left (fun idx _ => by
      rw [Complex.normSq_mul, Complex.normSq_ofReal]
      ring)]
  exact List.sum_map_mul_left _ _ _

/-- With a draw in the open interval (0, 1) and a nonzero register, the
marginal of the sampled outcome is positive. -/
lemma marginal_result_pos (n index : ℕ) (u : ℝ) (ψ : Tensor)
    (hψ : 0 < l2normSq n ψ) (hu0 : 0 < u) (hu1 : u < 1) :
    0 < marginal n index ψ ((measure n index u ψ).1) := by
  rw [measure_fst]
  have hadd := marginal_add n index ψ
  have hf := marginal_nonneg n index ψ false
  have ht := marginal_nonneg n index ψ true
  by_cases h : u > marginal n index ψ false
      / (marginal n index ψ false + marginal n index ψ true)
  · rw [decide_eq_true h]
    by_contra hc
    push_neg at hc
    have hmt : marginal n index ψ true = 0 := le_antisymm hc ht
    rw [hmt, add_zero] at h hadd
    have hmf_pos : 0 < marginal n index ψ false := by
      rw [hadd]
      exact hψ
    rw [div_self (ne_of_gt hmf_pos)] at h
    linarith
  · rw [decide_eq_false h]
    push_neg at h
    by_contra hc
    push_neg at hc
    have hmf : marginal n index ψ false = 0 := le_antisymm hc hf
    rw [hmf, zero_div] at h
    linarith

/-! ### Claims -/

/-- The state-side transpose applied to arbitrary free coordinates assembles
the index the specification describes: target positions take the contracted
values in listing order, non-target positions take the free values in their
original relative order. -/
lemma transposeT_state_riffle (n : ℕ) (ts : List ℕ) (hnd : ts.Nodup)
    (hlt : ∀ i ∈ ts, i < n) (ψ : Tensor) (fa s : List Bool)
    (hfa : fa.length = n - ts.length) :
    transposeT n (notinL n ts ++ ts) ψ (fa ++ s) = ψ (riffle n ts s fa) := by
  rw [transposeT, riffle]
  congr 1
  apply List.map_congr_left
  intro p hp
  have hpn : p < n := List.mem_range.1 hp
  rw [indexOf_state_axes n ts hnd hlt p hpn]
  by_cases hm : p ∈ ts
  · rw [if_pos hm, if_pos hm, getD_append_right _ _ _ _ (by rw [hfa]; omega)]
    congr 1
    rw [hfa]
    omega
  · rw [if_neg hm, if_neg hm]
    have hblt := countP_range_lt n ts hnd hlt p hpn hm
    rw [getD_append_left _ _ _ _ (by rw [hfa]; omega)]

/-- Claim C1 (amended).  For every gate tensor of rank 2k, every tuple of k
distinct in-range targets and every rank-n state, the contraction performed by
`apply_gate` contracts the gate's LEADING k axes against the state's k target
axes, and the intermediate tensor's axes are the state's remaining n - k axes
in their original relative order FOLLOWED BY the gate's trailing k axes: the
intermediate amplitude at `jdx` sums, over the contracted values `s`, the
state read at the index assembling `s` into the target positions and the
leading part of `jdx` into the non-target positions, times the gate read at
`s` followed by the trailing part of `jdx`. -/
theorem claim_C1_contraction (n : ℕ) (g ψ : Tensor) (ts : List ℕ)
    (jdx : List Bool) (hnd : ts.Nodup) (hlt : ∀ i ∈ ts, i < n)
    (hlen : jdx.length = n) :
    tensordot n (2 * ts.length) ψ g ts (List.range ts.length) jdx
      = ((bitLists ts.length).map (fun s =>
          ψ (riffle n ts s (jdx.take (n - ts.length)))
            * g (s ++ jdx.drop (n - ts.length)))).sum := by
  have hk := targets_length_le n ts hnd hlt
  rw [show tensordot n (2 * ts.length) ψ g ts (List.range ts.length) jdx
      = ((bitLists ts.length).map (fun s =>
          transposeT n (notinL n ts ++ ts) ψ (jdx.take (n - ts.length) ++ s)
          * transposeT (2 * ts.length)
              (List.range ts.length ++ notinL (2 * ts.length) (List.range ts.length)) g
              (s ++ jdx.drop (n - ts.length)))).sum
      from rfl]
  apply congrArg List.sum
  apply List.map_congr_left
  intro s hs
  have hslen := length_of_mem_bitLists ts.length s hs
  rw [transposeT_state_riffle n ts hnd hlt ψ _ s
      (by rw [List.length_take, hlen]; omega),
    transposeT_gate_side ts.length g s _ hslen
      (by rw [List.length_drop, hlen]; omega)]

/-- Claim C1 (counterexample to the claim as stated).  For the rank-2 gate
with single nonzero entry at row 0, column 1, one target `[0]` and the state
`|0>`, the contraction the code performs (value 1 at index `[true]`) differs
from the contraction the specification describes - trailing gate axes
contracted, gate axes leading in the intermediate - which gives 0 there. -/
theorem claim_C1_counterexample :
    tensordot 1 2 ket0 g01 [0] (List.range 1) [true] = 1 ∧
    spec_contract 1 1 g01 ket0 [0] [true] = 0 := by
  constructor
  · rw [show tensordot 1 2 ket0 g01 [0] (List.range 1) [true]
        = ket0 [false] * g01 [false, true] + (ket0 [true] * g01 [true, true] + 0)
        from rfl]
    rw [show ket0 [false] = 1 from rfl, show ket0 [true] = 0 from rfl,
      show g01 [false, true] = 1 from rfl, show g01 [true, true] = 0 from rfl]
    norm_num
  · rw [show spec_contract 1 1 g01 ket0 [0] [true]
        = g01 [true, false] * ket0 [false] + (g01 [true, true] * ket0 [true] + 0)
        from rfl]
    rw [show ket0 [false] = 1 from rfl, show ket0 [true] = 0 from rfl,
      show g01 [true, false] = 0 from rfl, show g01 [true, true] = 0 from rfl]
    norm_num

/-- Claim C1 (witness for the amended theorem): concrete evaluation at
`n = 1`, `ts = [0]`, state `|0>`, gate `g01`, index `[true]`. -/
theorem claim_C1_witness :
    tensordot 1 (2 * ([0] : List ℕ).length) ket0 g01 [0]
      (List.range ([0] : List ℕ).length) [true] = 1 := by
  have h := claim_C1_contraction 1 g01 ket0 [0] [true]
    (by decide) (by simp) rfl
  rw [h]
  rw [show ((bitLists ([0] : List ℕ).length).map (fun s =>
      ket0 (riffle 1 [0] s ([true].take (1 - ([0] : List ℕ).length)))
        * g01 (s ++ [true].drop (1 - ([0] : List ℕ).length)))).sum
    = ket0 [false] * g01 [false, true] + (ket0 [true] * g01 [true, true] + 0)
    from rfl]
  rw [show ket0 [false] = 1 from rfl, show ket0 [true] = 0 from rfl,
    show g01 [false, true] = 1 from rfl, show g01 [true, true] = 0 from rfl]
  norm_num

/-- Claim C2 (confirmed).  For a rank `n` and distinct in-range targets, the
transposition list has length n; a target position `i` is assigned source
position `n - k` plus the rank of `i` among the targets in listing order, and
a non-target position the next unused source index counting up from 0 over
non-target positions in their original order (the count of non-target
positions before it). -/
theorem claim_C2_get_transposition (n : ℕ) (ts : List ℕ) (i : ℕ)
    (hnd : ts.Nodup) (hlt : ∀ t ∈ ts, t < n) (hi : i < n) :
    (get_transposition n (ts.map (fun (t : ℕ) => (t : ℤ)))).length = n ∧
    (get_transposition n (ts.map (fun (t : ℕ) => (t : ℤ)))).getD i 0
      = (if i ∈ ts then n - ts.length + ts.indexOf i
         else (List.range i).countP (fun j => !(decide (j ∈ ts)))) :=
  ⟨get_transposition_length _ _, get_transposition_natD n ts i hi⟩

/-- Claim C2 (witness): `get_transposition(3, (2, 0))` has length 3 and sends
original axis 2 to source position 1 = 3 - 2 + rank of 2 in the tuple. -/
theorem claim_C2_witness :
    (get_transposition 3 (([2, 0] : List ℕ).map (fun (t : ℕ) => (t : ℤ)))).length = 3 ∧
    (get_transposition 3 (([2, 0] : List ℕ).map (fun (t : ℕ) => (t : ℤ)))).getD 2 0 = 1 := by
  have h := claim_C2_get_transposition 3 [2, 0] 2 (by decide) (by decide) (by decide)
  exact ⟨h.1, by rw [h.2]; decide⟩

/-- Claim C10 (confirmed).  For distinct in-range natural targets the
transposition list is a permutation of `range n`; consequently the final
transpose in `apply_gate` is well defined - the checked numpy pipeline raises
nothing and returns exactly the unchecked application - and the output is a
rank-n tensor: its value depends only on the first n coordinates of the index
list, like the input register. -/
theorem claim_C10_transposition_perm (n : ℕ) (g : Tensor) (ts : List ℕ)
    (ψ : Tensor) (idx1 idx2 : List Bool) (hnd : ts.Nodup)
    (hlt : ∀ i ∈ ts, i < n) (htake : idx1.take n = idx2.take n) :
    (get_transposition n (ts.map (fun (t : ℕ) => (t : ℤ)))).Perm (List.range n) ∧
    apply_gate_py n g (ts.map (fun (t : ℕ) => (t : ℤ))) ψ
      = some (apply_gate n g ts ψ) ∧
    apply_gate n g ts ψ idx1 = apply_gate n g ts ψ idx2 :=
  ⟨get_transposition_perm n ts hnd hlt,
   apply_gate_py_eq n g ts ψ hnd hlt,
   apply_gate_rank n g ts ψ hnd hlt idx1 idx2 htake⟩

/-- Claim C10 (witness): concrete instance at `n = 2`, targets `(1)`. -/
theorem claim_C10_witness :
    (get_transposition 2 (([1] : List ℕ).map (fun (t : ℕ) => (t : ℤ)))).Perm
      (List.range 2) ∧
    apply_gate_py 2 Xgate (([1] : List ℕ).map (fun (t : ℕ) => (t : ℤ))) ket0
      = some (apply_gate 2 Xgate [1] ket0) ∧
    apply_gate 2 Xgate [1] ket0 [true, false] = apply_gate 2 Xgate [1] ket0 [true, false] :=
  claim_C10_transposition_perm 2 Xgate [1] ket0 [true, false] [true, false]
    (by decide) (by decide) rfl

/-- Claim C3 (counterexample to the claim as stated).  The claim requires a
target index outside `[0, n)` to fail; but the Python engine accepts the
negative index -1 (numpy normalises it to `n - 1`), so `apply_gate` on a
rank-1 register with target -1 is silently computed through - no error is
raised. -/
theorem claim_C3_counterexample :
    (apply_gate_py 1 Xgate [(-1 : ℤ)] ket0).isSome = true := by
  rw [apply_gate_py, if_pos]
  · rfl
  · refine ⟨?_, ?_, ?_⟩
    · decide
    · decide
    · decide

/-- Claim C3 (amended).  Applying a gate with a target index outside numpy's
accepted axis range `[-n, n)`, or with duplicate target indices, fails
synchronously at application time with an error surfaced to the caller
(modelled as `none`); a negative index in `[-n, 0)`, although outside
`[0, n)`, is accepted through numpy's negative-axis convention and silently
computed through. -/
theorem claim_C3_invalid_targets (n : ℕ) (g : Tensor) (indices : List ℤ)
    (ψ : Tensor)
    (h : (∃ i ∈ indices, i < -(n : ℤ) ∨ (n : ℤ) ≤ i) ∨ ¬ indices.Nodup) :
    apply_gate_py n g indices ψ = none := by
  rw [apply_gate_py, if_neg]
  intro hc
  rcases h with ⟨i, hi, hrange⟩ | hdup
  · have h2 := hc.1 i hi
    omega
  · exact hdup (List.Nodup.of_map _ hc.2.1)

/-- Claim C3 (witness): an out-of-range target (5 on a rank-1 register) and a
duplicated target both raise. -/
theorem claim_C3_witness :
    apply_gate_py 1 Xgate [(5 : ℤ)] ket0 = none ∧
    apply_gate_py 2 Xgate [(0 : ℤ), (0 : ℤ)] ket0 = none := by
  constructor
  · exact claim_C3_invalid_targets 1 Xgate [(5 : ℤ)] ket0
      (Or.inl ⟨5, by decide, by decide⟩)
  · exact claim_C3_invalid_targets 2 Xgate [(0 : ℤ), (0 : ℤ)] ket0
      (Or.inr (by decide))

/-- Complex square of the square root of two. -/
lemma sqrt_two_sq : ((Real.sqrt 2 : ℝ) : ℂ) * ((Real.sqrt 2 : ℝ) : ℂ) = 2 := by
  rw [← Complex.ofReal_mul, Real.mul_self_sqrt (by norm_num)]
  norm_num

/-- The square root of two is a nonzero complex number. -/
lemma sqrt_two_ne : ((Real.sqrt 2 : ℝ) : ℂ) ≠ 0 := by
  rw [Ne, Complex.ofReal_eq_zero]
  exact ne_of_gt (Real.sqrt_pos.2 (by norm_num))

/-- Claim C8 (confirmed).  For every rank-n state tensor and every index
`i < n`, applying the Hadamard gate twice at `i` returns the original state;
over the exact arithmetic of the model the floating-point tolerance of the
claim becomes exact equality. -/
theorem claim_C8_H_twice (n i : ℕ) (ψ : Tensor) (idx : List Bool)
    (hi : i < n) (hlen : idx.length = n) :
    apply_gate n Hgate [i] (apply_gate n Hgate [i] ψ) idx = ψ idx := by
  have hnd : ([i] : List ℕ).Nodup := by simp
  have hlt : ∀ t ∈ ([i] : List ℕ), t < n := by simpa using hi
  have hilen : i < idx.length := by omega
  have hlen2 : ∀ s : List Bool, (overwrite [i] s idx).length = n := fun s => by
    rw [overwrite_length, hlen]
  rw [apply_gate_eval n Hgate [i] _ idx hnd hlt hlen,
    show bitLists ([i] : List ℕ).length = [[false], [true]] from rfl]
  simp only [List.map_cons, List.map_nil, List.sum_cons, List.sum_nil]
  rw [apply_gate_eval n Hgate [i] ψ _ hnd hlt (hlen2 [false]),
    apply_gate_eval n Hgate [i] ψ _ hnd hlt (hlen2 [true]),
    show bitLists ([i] : List ℕ).length = [[false], [true]] from rfl]
  simp only [List.map_cons, List.map_nil, List.sum_cons, List.sum_nil]
  simp only [overwrite_overwrite_single]
  rw [overwrite_getD_single i [false] idx hilen,
    overwrite_getD_single i [true] idx hilen]
  simp only [List.getD_cons_zero, List.cons_append, List.nil_append]
  cases hc : idx.getD i false
  · have hid : overwrite [i] [false] idx = idx := by
      have h0 := overwrite_self_single i idx
      rwa [hc] at h0
    rw [hid]
    rw [show Hgate [false, false] = 1 / ((Real.sqrt 2 : ℝ) : ℂ) from rfl,
      show Hgate [false, true] = 1 / ((Real.sqrt 2 : ℝ) : ℂ) from rfl,
      show Hgate [true, false] = 1 / ((Real.sqrt 2 : ℝ) : ℂ) from rfl,
      show Hgate [true, true] = (-1) / ((Real.sqrt 2 : ℝ) : ℂ) from rfl]
    generalize ψ (overwrite [i] [true] idx) = B
    generalize ψ idx = A
    field_simp
    linear_combination (-A) * sqrt_two_sq
  · have hid : overwrite [i] [true] idx = idx := by
      have h0 := overwrite_self_single i idx
      rwa [hc] at h0
    rw [hid]
    rw [show Hgate [false, false] = 1 / ((Real.sqrt 2 : ℝ) : ℂ) from rfl,
      show Hgate [false, true] = 1 / ((Real.sqrt 2 : ℝ) : ℂ) from rfl,
      show Hgate [true, false] = 1 / ((Real.sqrt 2 : ℝ) : ℂ) from rfl,
      show Hgate [true, true] = (-1) / ((Real.sqrt 2 : ℝ) : ℂ) from rfl]
    generalize ψ (overwrite [i] [false] idx) = A
    generalize ψ idx = B
    field_simp
    linear_combination (-B) * sqrt_two_sq

/-- Claim C8 (witness): concrete instance on a rank-2 register. -/
theorem claim_C8_witness :
    apply_gate 2 Hgate [0] (apply_gate 2 Hgate [0] oneT) [false, true]
      = oneT [false, true] :=
  claim_C8_H_twice 2 0 oneT [false, true] (by decide) rfl

/-- The tensor built by `C(i, j, X)` coincides entrywise with the literal
CNOT tensor of the catalog. -/
lemma Cgate_Xmat_eq (l : List Bool) : Cgate Xmat l = CNOTgate l := by
  match l with
  | [] => rfl
  | [_] => rfl
  | [_, _] => rfl
  | [_, _, _] => rfl
  | [a, b, c, d] =>
    cases a <;> cases b <;> cases c <;> cases d <;> rfl
  | _ :: _ :: _ :: _ :: _ :: _ => rfl

/-- Claim C7 (amended).  First part: for every 2 by 2 matrix `U` with REAL
entries - the source allocates the controlled gate in a float64 buffer, so
the slice assignment stores only the real part of `U` - and distinct
in-range targets `i, j`, the controlled gate `C(i, j, U)` acts as the unary
application of `U` at `j` on every component whose coordinate at `i` is 1,
and as the identity on every component whose coordinate at `i` is 0.
Second part: `C(0, 1, X)` applied to any register coincides with
`CNOT(0, 1)` applied to the same register (`X` has real entries). -/
theorem claim_C7_controlled :
    (∀ (n i j : ℕ) (U : Bool → Bool → ℂ) (ψ : Tensor) (idx : List Bool),
      i < n → j < n → i ≠ j → idx.length = n → (∀ b d, (U b d).im = 0) →
      apply_gate n (Cgate U) [i, j] ψ idx
        = (if idx.getD i false = true then apply_gate n (gate2 U) [j] ψ idx
           else ψ idx)) ∧
    (∀ (n : ℕ) (ψ : Tensor) (idx : List Bool),
      apply_gate n (Cgate Xmat) [0, 1] ψ idx
        = apply_gate n CNOTgate [0, 1] ψ idx) := by
  constructor
  · intro n i j U ψ idx hi hj hij hlen hre
    have hcast : ∀ b d, (((U b d).re : ℝ) : ℂ) = U b d := by
      intro b d
      apply Complex.ext
      · simp
      · simp [hre b d]
    have hnd : ([i, j] : List ℕ).Nodup := by simp [hij]
    have hlt : ∀ t ∈ ([i, j] : List ℕ), t < n := by
      intro t ht
      simp only [List.mem_cons, List.not_mem_nil, or_false] at ht
      rcases ht with rfl | rfl
      · exact hi
      · exact hj
    rw [apply_gate_eval n (Cgate U) [i, j] ψ idx hnd hlt hlen,
      show bitLists ([i, j] : List ℕ).length
        = [[false, false], [false, true], [true, false], [true, true]] from rfl]
    simp only [List.map_cons, List.map_nil, List.sum_cons, List.sum_nil,
      List.cons_append, List.nil_append]
    cases hc : idx.getD i false
    · rw [if_neg Bool.false_ne_true]
      cases hd : idx.getD j false
      · rw [show Cgate U [false, false, false, false] = 1 from rfl,
          show Cgate U [false, true, false, false] = 0 from rfl,
          show Cgate U [true, false, false, false] = 0 from rfl,
          show Cgate U [true, true, false, false] = 0 from rfl]
        have hself : overwrite [i, j] [false, false] idx = idx := by
          have h0 := overwrite_self_pair i j idx
          rwa [hc, hd] at h0
        rw [hself]
        ring
      · rw [show Cgate U [false, false, false, true] = 0 from rfl,
          show Cgate U [false, true, false, true] = 1 from rfl,
          show Cgate U [true, false, false, true] = 0 from rfl,
          show Cgate U [true, true, false, true] = 0 from rfl]
        have hself : overwrite [i, j] [false, true] idx = idx := by
          have h0 := overwrite_self_pair i j idx
          rwa [hc, hd] at h0
        rw [hself]
        ring
    · rw [if_pos rfl]
      rw [apply_gate_eval n (gate2 U) [j] ψ idx (by simp) (by simpa using hj) hlen,
        show bitLists ([j] : List ℕ).length = [[false], [true]] from rfl]
      simp only [List.map_cons, List.map_nil, List.sum_cons, List.sum_nil,
        List.cons_append, List.nil_append]
      rw [show Cgate U [false, false, true, idx.getD j false] = 0 from rfl,
        show Cgate U [false, true, true, idx.getD j false] = 0 from rfl,
        show Cgate U [true, false, true, idx.getD j false]
          = (((U false (idx.getD j false)).re : ℝ) : ℂ) from rfl,
        show Cgate U [true, true, true, idx.getD j false]
          = (((U true (idx.getD j false)).re : ℝ) : ℂ) from rfl,
        hcast false (idx.getD j false), hcast true (idx.getD j false),
        show gate2 U [false, idx.getD j false] = U false (idx.getD j false) from rfl,
        show gate2 U [true, idx.getD j false] = U true (idx.getD j false) from rfl]
      rw [overwrite_pair_to_single i j false idx hij hc,
        overwrite_pair_to_single i j true idx hij hc]
      ring
  · intro n ψ idx
    rw [show Cgate Xmat = CNOTgate from funext Cgate_Xmat_eq]

/-- Claim C7 (counterexample to the claim as stated).  For the complex unary
gate Y the program's controlled gate is NOT controlled-Y: the float64 buffer
keeps only the real part of Y, which is the zero matrix, so on a component
with control coordinate 1 the application of `C(0, 1, Y)` yields 0, while
applying Y itself at qubit 1 yields i. -/
theorem claim_C7_counterexample :
    apply_gate 2 (Cgate Ymat) [0, 1] oneT [true, false]
      ≠ apply_gate 2 (gate2 Ymat) [1] oneT [true, false] := by
  have h1 : apply_gate 2 (Cgate Ymat) [0, 1] oneT [true, false] = 0 := by
    rw [apply_gate_eval 2 (Cgate Ymat) [0, 1] oneT [true, false]
      (by decide) (by decide) rfl]
    show (1 : ℂ) * 0 + (1 * 0 + (1 * 0 + (1 * 0 + 0))) = 0
    norm_num
  have h2 : apply_gate 2 (gate2 Ymat) [1] oneT [true, false] = Complex.I := by
    rw [apply_gate_eval 2 (gate2 Ymat) [1] oneT [true, false]
      (by decide) (by decide) rfl]
    show (1 : ℂ) * 0 + (1 * Complex.I + 0) = Complex.I
    norm_num
  rw [h1, h2]
  exact Ne.symm Complex.I_ne_zero

/-- Claim C7 (witness): on a concrete rank-2 register with the control
coordinate equal to 1, `C(0, 1, X)` acts as `X` on qubit 1. -/
theorem claim_C7_witness :
    apply_gate 2 (Cgate Xmat) [0, 1] oneT [true, false]
      = apply_gate 2 (gate2 Xmat) [1] oneT [true, false] := by
  have h := claim_C7_controlled.1 2 0 1 Xmat oneT [true, false]
    (by decide) (by decide) (by decide) rfl
    (by intro b d; cases b <;> cases d <;> simp [Xmat])
  simpa using h

/-- Claim C6 (confirmed).  Non-collapsing full measurement returns a sampled
multi-index of length n and leaves the caller's register contents completely
unchanged, whether or not the register is normalised. -/
theorem claim_C6_nondestructive (n : ℕ) (u : ℝ) (ψ : Tensor) :
    (measure_all n false u ψ).2 = ψ ∧ (measure_all n false u ψ).1.length = n := by
  constructor
  · rfl
  · have h : ∀ i : ℕ, (unravel n i).length = n := by
      intro i
      simp [unravel]
    exact h _

/-- Claim C9 (counterexample to the claim as stated).  Applying `X` at index 0
to the register `|0>` leaves the caller's buffer holding its original contents
(amplitude 1 at the zero multi-index) even though the mathematically applied
result has amplitude 0 there: the operator returns a fresh tensor instead of
mutating the register in place. -/
theorem claim_C9_counterexample :
    (apply_gate_op 1 Xgate [0] ket0).2 [false] = 1 ∧
    (apply_gate_op 1 Xgate [0] ket0).1 [false] = 0 := by
  constructor
  · rw [show (apply_gate_op 1 Xgate [0] ket0).2 = ket0 from rfl,
      show ket0 [false] = 1 from rfl]
  · rw [show (apply_gate_op 1 Xgate [0] ket0).1 = apply_gate 1 Xgate [0] ket0 from rfl,
      apply_gate_eval 1 Xgate [0] ket0 [false] (by decide) (by decide) rfl]
    rw [show ((bitLists ([0] : List ℕ).length).map (fun s =>
        ket0 (overwrite [0] s [false])
          * Xgate (s ++ ([0] : List ℕ).map (fun t => [false].getD t false)))).sum
      = ket0 [false] * Xgate [false, false] + (ket0 [true] * Xgate [true, false] + 0)
      from rfl]
    rw [show ket0 [false] = 1 from rfl, show ket0 [true] = 0 from rfl,
      show Xgate [false, false] = 0 from rfl, show Xgate [true, false] = 1 from rfl]
    norm_num

/-- Claim C9 (amended).  Gate application does not mutate the register in
place: the closure computes a freshly built tensor from the register and the
caller's buffer contents are unchanged after the call; the register is
threaded through the circuit pipeline by rebinding the returned value. -/
theorem claim_C9_gate_application_pure (n : ℕ) (g : Tensor) (ts : List ℕ)
    (ψ : Tensor) : (apply_gate_op n g ts ψ).2 = ψ := rfl

/-- Claim C4 (code evaluation at the failing input).  On the all-zero rank-1
register both marginals vanish; the code divides by zero and returns without
raising, leaving an invalid state: in the exact-arithmetic model the register
afterwards has squared norm 0 (in floating point the amplitudes are NaN), not
the unit norm a valid post-measurement state must have. -/
theorem claim_C4_zero_state :
    l2normSq 1 (measure 1 0 (1 / 2 : ℝ) zeroT).2 = 0 := by
  rw [measure_snd]
  rw [l2normSq_smul, l2normSq_collapseAt]
  simp [marginal, bitLists, zeroT]

/-- Marginal of outcome 0 for the register `|1>`. -/
lemma marginal_ket1_false : marginal 1 0 ket1 false = 0 := by
  simp [marginal, bitLists, ket1]

/-- Marginal of outcome 1 for the register `|1>`. -/
lemma marginal_ket1_true : marginal 1 0 ket1 true = 1 := by
  simp [marginal, bitLists, ket1]

/-- Squared norm of the register `|1>`. -/
lemma l2normSq_ket1 : l2normSq 1 ket1 = 1 := by
  simp [l2normSq, bitLists, ket1]

/-- Claim C5 (counterexample to the claim as stated).  For the nonzero
register `|1>` and the boundary draw u = 0 (a possible value of
`cp.random.rand()`), the sampled bit is 0 although the outcome-0 marginal is
zero: the collapse zeroes the whole register, the renormalisation divides by
zero, and the resulting register has squared norm 0 instead of 1 (in floating
point its entries are NaN). -/
theorem claim_C5_counterexample :
    0 < l2normSq 1 ket1 ∧ l2normSq 1 (measure 1 0 (0 : ℝ) ket1).2 = 0 := by
  constructor
  · rw [l2normSq_ket1]
    norm_num
  · have hr : (measure 1 0 (0 : ℝ) ket1).1 = false := by
      rw [measure_fst, marginal_ket1_false, marginal_ket1_true]
      norm_num
    rw [measure_snd, hr]
    rw [l2normSq_smul, l2normSq_collapseAt, marginal_ket1_false]
    simp

/-- Claim C5 (amended).  For every nonzero rank-n state tensor, every index
in `[0, n)` and every random draw strictly inside (0, 1) - excluding the
measure-zero boundary draw u = 0, at which the code divides by zero when the
outcome-0 marginal vanishes - after `measure` returns the sampled bit, every
amplitude of the register whose coordinate at the measured axis differs from
the sampled bit is zero, and the register (collapsed in place and
renormalised) has squared L2 norm exactly 1. -/
theorem claim_C5_measure_collapse (n index : ℕ) (u : ℝ) (ψ : Tensor)
    (idx : List Bool) (hin : index < n) (hψ : 0 < l2normSq n ψ)
    (hu0 : 0 < u) (hu1 : u < 1) (hlen : idx.length = n) :
    (idx.getD index false ≠ (measure n index u ψ).1
      → (measure n index u ψ).2 idx = 0) ∧
    l2normSq n (measure n index u ψ).2 = 1 := by
  have hpos : 0 < marginal n index ψ ((measure n index u ψ).1) :=
    marginal_result_pos n index u ψ hψ hu0 hu1
  constructor
  · intro hne
    have h2 : (measure n index u ψ).2 idx
        = ((1 / Real.sqrt (l2normSq n
              (collapseAt index ((measure n index u ψ).1) ψ)) : ℝ) : ℂ)
          * collapseAt index ((measure n index u ψ).1) ψ idx := rfl
    rw [h2, show collapseAt index ((measure n index u ψ).1) ψ idx
        = (if idx.getD index false = (measure n index u ψ).1 then ψ idx else 0)
      from rfl, if_neg hne, mul_zero]
  · rw [measure_snd]
    rw [l2normSq_smul, l2normSq_collapseAt]
    rw [div_pow, one_pow, Real.sq_sqrt (le_of_lt hpos)]
    rw [one_div, inv_mul_cancel₀ (ne_of_gt hpos)]

/-- Claim C5 (witness): concrete instance on the register `|1>` with draw
u = 1/2; the sampled bit is 1, the amplitude at multi-index 0 is zeroed, and
the collapsed register is normalised. -/
theorem claim_C5_witness :
    ((measure 1 0 (1 / 2 : ℝ) ket1).2 [false] = 0) ∧
    l2normSq 1 (measure 1 0 (1 / 2 : ℝ) ket1).2 = 1 := by
  have h := claim_C5_measure_collapse 1 0 (1 / 2 : ℝ) ket1 [false]
    (by norm_num) (by rw [l2normSq_ket1]; norm_num) (by norm_num) (by norm_num) rfl
  refine ⟨h.1 ?_, h.2⟩
  rw [measure_fst, marginal_ket1_false, marginal_ket1_true]
  norm_num

end QuantumSim
